import Mathlib

/-!
Verification of the skaffold workspace-utility and config-mutation layer.

Paths are modelled as lists of segments; the filesystem visible to the
utilities is the list of regular files it contains, directories being the
proper prefixes of file paths.  Functions whose Go bodies are not part of
the sources at hand (only their tests are) are modelled from the spec and
marked as such in their doc comments.
-/

deriving instance DecidableEq for Except

namespace Skaffold

/-- A filesystem path, as the list of its segments. -/
abbrev Path := List String

/-- Boolean prefix test on lists, used for the directory/descendant relation. -/
def isPreOf {α : Type} [DecidableEq α] : List α → List α → Bool
  | [], _ => true
  | _ :: _, [] => false
  | a :: as, b :: bs => a == b && isPreOf as bs

/-- Deduplication keeping the first occurrence of each element, with an
accumulator of already-emitted elements. -/
def dedupSeen {α : Type} [DecidableEq α] (seen : List α) : List α → List α
  | [] => []
  | a :: l => if a ∈ seen then dedupSeen seen l else a :: dedupSeen (a :: seen) l

/-- Deduplication keeping the first occurrence of each element. -/
def dedupFirst {α : Type} [DecidableEq α] (l : List α) : List α := dedupSeen [] l

/-- A filesystem, given by the regular files it contains (paths relative to
the filesystem root).  Directories are the proper prefixes of file paths. -/
structure FS where
  files : List Path
deriving DecidableEq

/-- The path names a regular file of the filesystem. -/
def FS.isFile (fs : FS) (p : Path) : Bool := fs.files.contains p

/-- The path names a directory: the root, or a proper prefix of some file. -/
def FS.isDir (fs : FS) (p : Path) : Bool :=
  p == ([] : Path) || fs.files.any (fun f => isPreOf p f && p != f)

/-- The path names an existing filesystem entry (file or directory). -/
def FS.pathExists (fs : FS) (p : Path) : Bool := fs.isFile p || fs.isDir p

/-- All leading parts of a list, from the empty one to the full list. -/
def initsOf {α : Type} : List α → List (List α)
  | [] => [[]]
  | a :: l => [] :: (initsOf l).map (fun e => a :: e)

/-- All existing entries of the filesystem: the root and every prefix of a
file path, each listed once, in first-seen order. -/
def FS.entries (fs : FS) : List Path :=
  dedupFirst (([] : Path) :: fs.files.flatMap initsOf)

/-- Shell-style glob matching of one pattern segment against one name, with
fuel to keep the recursion structural; a star matches any character run. -/
def globStep : Nat → List Char → List Char → Bool
  | 0, _, _ => false
  | _ + 1, [], s => s.isEmpty
  | n + 1, p :: ps, s =>
    if p == '*' then
      match s with
      | [] => globStep n ps []
      | _ :: cs => globStep n ps s || globStep n (p :: ps) cs
    else
      match s with
      | [] => false
      | c :: cs => p == c && globStep n ps cs

/-- Glob matching of a pattern segment against a name. -/
def globMatch (pat s : String) : Bool :=
  globStep (pat.data.length + s.data.length + 1) pat.data s.data

/-- The pattern (a list of segments) matches the path segment-by-segment. -/
def matchSegs : Path → Path → Bool
  | [], [] => true
  | [], _ :: _ => false
  | _ :: _, [] => false
  | a :: as, b :: bs => globMatch a b && matchSegs as bs

/-- The segment contains no wildcard. -/
def noWildSeg (s : String) : Bool := s.data.all (fun c => c != '*')

/-- Well-formedness of a modelled filesystem: files have nonempty paths and
no file path is a proper prefix of another (a file is never a directory). -/
def FS.wellFormed (fs : FS) : Bool :=
  fs.files.all (fun f =>
    f != ([] : Path) && fs.files.all (fun g => !(isPreOf f g) || f == g))

/-- All existing entries the glob pattern matches. -/
def patMatches (fs : FS) (pat : Path) : List Path :=
  fs.entries.filter (matchSegs pat)

/-- Walking a matched entry: a regular file yields itself, a directory
yields every regular file nested anywhere under it. -/
def walk (fs : FS) (p : Path) : List Path :=
  if fs.isFile p then [p] else fs.files.filter (fun f => isPreOf p f)

/-- Modelled from the spec: the body of `ExpandPathsGlob` is not among the
sources (only its tests are).  Given a root directory and an ordered list of
glob patterns it produces the deduplicated union of all regular files matched
by any pattern — an entry matched directly if it is a file, or every file
nested under it if it is a directory — each as an absolute path (the root
prepended), preserving first-seen order across the pattern list. -/
def ExpandPathsGlob (root : Path) (fs : FS) (pats : List Path) : List Path :=
  dedupFirst
    ((pats.flatMap (fun pat => (patMatches fs pat).flatMap (walk fs))).map
      (fun f => root ++ f))

/-- The filesystem of the `TestExpandPathsGlob` fixture. -/
def fsGlob : FS :=
  ⟨[["dir", "sub_dir", "file"], ["dir_b", "sub_dir_b", "file"]]⟩

example : ExpandPathsGlob ["tmp"] fsGlob [["dir", "sub_dir", "file"]] =
    [["tmp", "dir", "sub_dir", "file"]] := by decide

example : ExpandPathsGlob ["tmp"] fsGlob [["dir", "sub_dir", "*"]] =
    [["tmp", "dir", "sub_dir", "file"]] := by decide

example : ExpandPathsGlob ["tmp"] fsGlob [["dir*"]] =
    [["tmp", "dir", "sub_dir", "file"], ["tmp", "dir_b", "sub_dir_b", "file"]] := by
  decide

theorem mem_of_mem_dedupSeen {α : Type} [DecidableEq α] {a : α} :
    ∀ (l seen : List α), a ∈ dedupSeen seen l → a ∈ l := by
  intro l
  induction l with
  | nil => intro seen h; simp [dedupSeen] at h
  | cons b l ih =>
    intro seen h
    simp only [dedupSeen] at h
    split at h
    · exact List.mem_cons_of_mem _ (ih seen h)
    · rcases List.mem_cons.mp h with h | h
      · exact h ▸ List.mem_cons_self _ _
      · exact List.mem_cons_of_mem _ (ih _ h)

theorem not_seen_of_mem_dedupSeen {α : Type} [DecidableEq α] {a : α} :
    ∀ (l seen : List α), a ∈ dedupSeen seen l → a ∉ seen := by
  intro l
  induction l with
  | nil => intro seen h; simp [dedupSeen] at h
  | cons b l ih =>
    intro seen h
    simp only [dedupSeen] at h
    split at h
    · exact ih seen h
    · rcases List.mem_cons.mp h with h | h
      · subst h; assumption
      · intro hs
        exact ih _ h (List.mem_cons_of_mem _ hs)

theorem dedupSeen_nodup {α : Type} [DecidableEq α] :
    ∀ (l seen : List α), (dedupSeen seen l).Nodup := by
  intro l
  induction l with
  | nil => intro seen; simp [dedupSeen]
  | cons b l ih =>
    intro seen
    simp only [dedupSeen]
    split
    · exact ih seen
    · refine List.nodup_cons.mpr ⟨fun hmem => ?_, ih _⟩
      exact not_seen_of_mem_dedupSeen l _ hmem (List.mem_cons_self _ _)

theorem mem_dedupSeen_of_mem {α : Type} [DecidableEq α] {a : α} :
    ∀ (l seen : List α), a ∈ l → a ∉ seen → a ∈ dedupSeen seen l := by
  intro l
  induction l with
  | nil => intro seen h _; simp at h
  | cons b l ih =>
    intro seen h hs
    simp only [dedupSeen]
    rcases List.mem_cons.mp h with h | h
    · subst h
      split
      · exact absurd (by assumption) hs
      · exact List.mem_cons_self _ _
    · split
      · exact ih seen h hs
      · by_cases hab : a = b
        · exact hab ▸ List.mem_cons_self _ _
        · refine List.mem_cons_of_mem _ (ih _ h ?_)
          intro hmem
          rcases List.mem_cons.mp hmem with h | h
          · exact hab h
          · exact hs h

theorem dedupFirst_nodup {α : Type} [DecidableEq α] (l : List α) :
    (dedupFirst l).Nodup := dedupSeen_nodup l []

theorem mem_of_mem_dedupFirst {α : Type} [DecidableEq α] {a : α} {l : List α}
    (h : a ∈ dedupFirst l) : a ∈ l := mem_of_mem_dedupSeen l [] h

theorem mem_dedupFirst_of_mem {α : Type} [DecidableEq α] {a : α} {l : List α}
    (h : a ∈ l) : a ∈ dedupFirst l :=
  mem_dedupSeen_of_mem l [] h (List.not_mem_nil a)

theorem mem_files_of_mem_walk {fs : FS} {p q : Path} (h : q ∈ walk fs p) :
    q ∈ fs.files := by
  unfold walk at h
  split at h
  · rcases List.mem_singleton.mp h with rfl
    simpa [FS.isFile, List.elem_iff] using (by assumption : fs.isFile q = true)
  · exact (List.mem_filter.mp h).1

/-- C1: for every root and pattern list, the result of `ExpandPathsGlob`
contains no duplicate paths, and every returned path is the root followed by
a relative path that names a regular file of the filesystem — directories are
never included. -/
theorem expandPathsGlob_nodup_and_files (root : Path) (fs : FS) (pats : List Path) :
    (ExpandPathsGlob root fs pats).Nodup ∧
      ∀ q ∈ ExpandPathsGlob root fs pats, ∃ f, f ∈ fs.files ∧ q = root ++ f := by
  constructor
  · exact dedupSeen_nodup _ []
  · intro q hq
    have hq' := mem_of_mem_dedupFirst hq
    rcases List.mem_map.mp hq' with ⟨f, hf, rfl⟩
    rcases List.mem_flatMap.mp hf with ⟨pat, _, hf2⟩
    rcases List.mem_flatMap.mp hf2 with ⟨e, _, hwalk⟩
    exact ⟨f, mem_files_of_mem_walk hwalk, rfl⟩

theorem expandPathsGlob_nodup_and_files_witness :
    ∃ f, f ∈ fsGlob.files ∧
      (["tmp", "dir", "sub_dir", "file"] : Path) = ["tmp"] ++ f :=
  (expandPathsGlob_nodup_and_files ["tmp"] fsGlob [["dir*"]]).2
    ["tmp", "dir", "sub_dir", "file"] (by decide)

theorem dedupSeen_append {α : Type} [DecidableEq α] :
    ∀ (A : List α) (seen B : List α), ∃ rest,
      dedupSeen seen (A ++ B) = dedupSeen seen A ++ rest ∧
        ∀ y ∈ rest, y ∉ A ∧ y ∉ seen := by
  intro A
  induction A with
  | nil =>
    intro seen B
    refine ⟨dedupSeen seen B, by simp [dedupSeen], fun y hy => ?_⟩
    exact ⟨List.not_mem_nil y, not_seen_of_mem_dedupSeen B seen hy⟩
  | cons a A ih =>
    intro seen B
    by_cases ha : a ∈ seen
    · rcases ih seen B with ⟨rest, heq, hmem⟩
      refine ⟨rest, by simp [dedupSeen, ha, heq], fun y hy => ?_⟩
      rcases hmem y hy with ⟨h1, h2⟩
      refine ⟨fun hmem2 => ?_, h2⟩
      rcases List.mem_cons.mp hmem2 with rfl | h
      · exact h2 ha
      · exact h1 h
    · rcases ih (a :: seen) B with ⟨rest, heq, hmem⟩
      refine ⟨rest, by simp [dedupSeen, ha, heq], fun y hy => ?_⟩
      rcases hmem y hy with ⟨h1, h2⟩
      constructor
      · intro hmem2
        rcases List.mem_cons.mp hmem2 with rfl | h
        · exact h2 (List.mem_cons_self _ _)
        · exact h1 h
      · exact fun hs => h2 (List.mem_cons_of_mem _ hs)

/-- C3: matches are returned in first-seen order across the pattern list;
the result for an extended pattern list is the result for the original
prefix of patterns, followed only by paths no pattern of that prefix
matched. -/
theorem expandPathsGlob_order (root : Path) (fs : FS) (l1 l2 : List Path) :
    ∃ rest, ExpandPathsGlob root fs (l1 ++ l2) =
        ExpandPathsGlob root fs l1 ++ rest ∧
      ∀ q ∈ rest,
        q ∉ (l1.flatMap (fun pat => (patMatches fs pat).flatMap (walk fs))).map
            (fun f => root ++ f) := by
  unfold ExpandPathsGlob dedupFirst
  rw [List.flatMap_append, List.map_append]
  rcases dedupSeen_append
      ((l1.flatMap (fun pat => (patMatches fs pat).flatMap (walk fs))).map
        (fun f => root ++ f)) []
      ((l2.flatMap (fun pat => (patMatches fs pat).flatMap (walk fs))).map
        (fun f => root ++ f)) with ⟨rest, heq, hmem⟩
  exact ⟨rest, heq, fun q hq => (hmem q hq).1⟩

theorem expandPathsGlob_order_witness :
    ∃ rest, ExpandPathsGlob ["tmp"] fsGlob
          ([["dir", "sub_dir", "*"]] ++ [["dir*"]]) =
        ExpandPathsGlob ["tmp"] fsGlob [["dir", "sub_dir", "*"]] ++ rest ∧
      ∀ q ∈ rest,
        q ∉ ([["dir", "sub_dir", "*"]].flatMap
              (fun pat => (patMatches fsGlob pat).flatMap (walk fsGlob))).map
            (fun f => ["tmp"] ++ f) :=
  expandPathsGlob_order ["tmp"] fsGlob [["dir", "sub_dir", "*"]] [["dir*"]]

theorem all_cons_split {α : Type} {p : α → Bool} {a : α} {l : List α}
    (h : (a :: l).all p = true) : p a = true ∧ l.all p = true := by
  simpa using h

theorem strData_inj : ∀ {a b : String}, a.data = b.data → a = b := by
  intro a b h
  cases a
  cases b
  exact congrArg String.mk h

theorem globStep_noWild :
    ∀ (n : Nat) (p s : List Char), p.all (fun c => c != '*') = true →
      p.length < n → (globStep n p s = true ↔ p = s) := by
  intro n
  induction n with
  | zero => intro p s _ h; exact absurd h (Nat.not_lt_zero _)
  | succ n ih =>
    intro p s hW hlen
    cases p with
    | nil => cases s <;> simp [globStep]
    | cons a ps =>
      obtain ⟨h1, hps⟩ := all_cons_split hW
      have ha : (a == '*') = false := by simpa using h1
      cases s with
      | nil => simp [globStep, ha]
      | cons c cs =>
        have hlen' : ps.length < n := by
          simpa [Nat.succ_lt_succ_iff] using hlen
        simp [globStep, ha, Bool.and_eq_true, ih ps cs hps hlen', List.cons.injEq]

theorem globMatch_noWild {a b : String} (h : noWildSeg a = true) :
    globMatch a b = true ↔ a = b := by
  unfold globMatch
  rw [globStep_noWild _ _ _ h (by omega)]
  exact ⟨fun hd => strData_inj hd, fun he => he ▸ rfl⟩

theorem matchSegs_noWild :
    ∀ (pat p : Path), pat.all noWildSeg = true → (matchSegs pat p = true ↔ pat = p) := by
  intro pat
  induction pat with
  | nil => intro p _; cases p <;> simp [matchSegs]
  | cons a ps ih =>
    intro p hW
    obtain ⟨ha, hps⟩ := all_cons_split hW
    cases p with
    | nil => simp [matchSegs]
    | cons b qs =>
      simp [matchSegs, Bool.and_eq_true, globMatch_noWild ha, ih qs hps,
        List.cons.injEq]

theorem matchSegs_append_single :
    ∀ (d : Path) (s : String) (e : Path), d.all noWildSeg = true →
      (matchSegs (d ++ [s]) e = true ↔ ∃ n, e = d ++ [n] ∧ globMatch s n = true) := by
  intro d
  induction d with
  | nil =>
    intro s e _
    cases e with
    | nil => simp [matchSegs]
    | cons x t =>
      cases t with
      | nil => simp [matchSegs]
      | cons y t2 => simp [matchSegs]
  | cons a d2 ih =>
    intro s e hW
    obtain ⟨ha, hd2⟩ := all_cons_split hW
    cases e with
    | nil => simp [matchSegs]
    | cons b e2 =>
      rw [List.cons_append]
      have hstep : matchSegs (a :: (d2 ++ [s])) (b :: e2) =
          (globMatch a b && matchSegs (d2 ++ [s]) e2) := rfl
      rw [hstep, Bool.and_eq_true, globMatch_noWild ha, ih s e2 hd2]
      constructor
      · rintro ⟨rfl, n, rfl, hg⟩
        exact ⟨n, rfl, hg⟩
      · rintro ⟨n, he, hg⟩
        injection he with hb he2
        subst hb
        subst he2
        exact ⟨rfl, n, rfl, hg⟩

theorem isPreOf_iff {α : Type} [DecidableEq α] :
    ∀ (e f : List α), isPreOf e f = true ↔ ∃ t, e ++ t = f := by
  intro e
  induction e with
  | nil => intro f; simp [isPreOf]
  | cons a e2 ih =>
    intro f
    cases f with
    | nil => simp [isPreOf]
    | cons b f2 =>
      have hstep : isPreOf (a :: e2) (b :: f2) = ((a == b) && isPreOf e2 f2) := rfl
      rw [hstep, Bool.and_eq_true, beq_iff_eq, ih f2]
      constructor
      · rintro ⟨rfl, t, rfl⟩
        exact ⟨t, rfl⟩
      · rintro ⟨t, ht⟩
        injection ht with hb hrest
        subst hb
        exact ⟨rfl, t, hrest⟩

theorem mem_initsOf {α : Type} :
    ∀ (f e : List α), e ∈ initsOf f ↔ ∃ t, e ++ t = f := by
  intro f
  induction f with
  | nil =>
    intro e
    simp only [initsOf, List.mem_singleton]
    constructor
    · rintro rfl; exact ⟨[], rfl⟩
    · rintro ⟨t, ht⟩
      rcases List.append_eq_nil.mp ht with ⟨rfl, rfl⟩
      rfl
  | cons a l ih =>
    intro e
    simp only [initsOf, List.mem_cons, List.mem_map]
    constructor
    · rintro (rfl | ⟨e2, he2, rfl⟩)
      · exact ⟨a :: l, rfl⟩
      · rcases (ih e2).mp he2 with ⟨t, rfl⟩
        exact ⟨t, rfl⟩
    · rintro ⟨t, ht⟩
      cases e with
      | nil => exact Or.inl rfl
      | cons x e2 =>
        injection ht with hx hrest
        subst hx
        exact Or.inr ⟨e2, (ih e2).mpr ⟨t, hrest⟩, rfl⟩

theorem isFile_iff_mem {fs : FS} {p : Path} : fs.isFile p = true ↔ p ∈ fs.files := by
  simp [FS.isFile, List.elem_iff]

theorem mem_entries_iff (fs : FS) (e : Path) :
    e ∈ fs.entries ↔ (e = [] ∨ ∃ f, f ∈ fs.files ∧ ∃ t, e ++ t = f) := by
  constructor
  · intro h
    have h2 := mem_of_mem_dedupFirst h
    rcases List.mem_cons.mp h2 with rfl | h3
    · exact Or.inl rfl
    · rcases List.mem_flatMap.mp h3 with ⟨f, hf, he⟩
      exact Or.inr ⟨f, hf, (mem_initsOf f e).mp he⟩
  · intro h
    apply mem_dedupFirst_of_mem
    rcases h with rfl | ⟨f, hf, t, ht⟩
    · exact List.mem_cons_self _ _
    · exact List.mem_cons_of_mem _
        (List.mem_flatMap.mpr ⟨f, hf, (mem_initsOf f e).mpr ⟨t, ht⟩⟩)

theorem mem_entries_of_file {fs : FS} {f : Path} (hf : f ∈ fs.files) :
    f ∈ fs.entries :=
  (mem_entries_iff fs f).mpr (Or.inr ⟨f, hf, [], by simp⟩)

theorem pathExists_of_mem_entries {fs : FS} {e : Path} (h : e ∈ fs.entries) :
    fs.pathExists e = true := by
  rcases (mem_entries_iff fs e).mp h with rfl | ⟨f, hf, t, ht⟩
  · simp [FS.pathExists, FS.isDir]
  · cases t with
    | nil =>
      have hef : e ∈ fs.files := by
        have he : e = f := by simpa using ht
        exact he ▸ hf
      simp [FS.pathExists, Bool.or_eq_true]
      exact Or.inl (isFile_iff_mem.mpr hef)
    | cons x t2 =>
      have hne : e ≠ f := by
        intro he
        subst he
        have : (x :: t2 : Path) = [] := by
          have h0 : e ++ x :: t2 = e ++ [] := by simpa using ht
          exact List.append_cancel_left h0
        cases this
      simp only [FS.pathExists, FS.isDir, Bool.or_eq_true, List.any_eq_true]
      refine Or.inr (Or.inr ⟨f, hf, ?_⟩)
      rw [Bool.and_eq_true]
      exact ⟨(isPreOf_iff e f).mpr ⟨x :: t2, ht⟩, bne_iff_ne.mpr hne⟩

theorem filter_eq_single_of_nodup {α : Type} {l : List α} {p : α → Bool} {a : α}
    (hn : l.Nodup) (ha : a ∈ l) (hp : ∀ x ∈ l, p x = true ↔ x = a) :
    l.filter p = [a] := by
  induction l with
  | nil => cases ha
  | cons b l ih =>
    obtain ⟨hb, hn2⟩ := List.nodup_cons.mp hn
    rcases List.mem_cons.mp ha with rfl | ha2
    · have hpb : p a = true := (hp a (List.mem_cons_self _ _)).mpr rfl
      rw [List.filter_cons_of_pos hpb]
      have hnil : l.filter p = [] := by
        apply List.filter_eq_nil.mpr
        intro x hx hpx
        exact hb ((hp x (List.mem_cons_of_mem _ hx)).mp hpx ▸ hx)
      rw [hnil]
    · have hpb : p b = false := by
        cases hpbv : p b with
        | false => rfl
        | true =>
          have hba : b = a := (hp b (List.mem_cons_self _ _)).mp hpbv
          exact absurd (hba ▸ ha2) hb
      rw [List.filter_cons_of_neg (by simp [hpb])]
      exact ih hn2 ha2 (fun x hx => hp x (List.mem_cons_of_mem _ hx))

theorem dedupFirst_single {α : Type} [DecidableEq α] (a : α) :
    dedupFirst [a] = [a] := by
  simp [dedupFirst, dedupSeen]

theorem dedupFirst_pair {α : Type} [DecidableEq α] {a b : α} (h : b ≠ a) :
    dedupFirst [a, b] = [a, b] := by
  simp [dedupFirst, dedupSeen, h]

theorem walk_of_file {fs : FS} {p : Path} (h : p ∈ fs.files) : walk fs p = [p] := by
  simp [walk, FS.isFile, List.elem_iff, h]

theorem wf_facts {fs : FS} (hwf : fs.wellFormed = true) :
    (∀ f ∈ fs.files, f ≠ ([] : Path)) ∧
      ∀ f ∈ fs.files, ∀ g ∈ fs.files, isPreOf f g = true → f = g := by
  rw [FS.wellFormed] at hwf
  simp only [List.all_eq_true, Bool.and_eq_true, bne_iff_ne, ne_eq,
    Bool.or_eq_true, Bool.not_eq_true', beq_iff_eq] at hwf
  constructor
  · exact fun f hf => (hwf f hf).1
  · intro f hf g hg hpre
    rcases (hwf f hf).2 g hg with h | h
    · rw [hpre] at h
      cases h
    · exact h

theorem expandPathsGlob_raw (root : Path) (fs : FS) (pats : List Path) :
    ExpandPathsGlob root fs pats =
      dedupFirst
        ((pats.flatMap (fun pat => (patMatches fs pat).flatMap (walk fs))).map
          (fun f => root ++ f)) := rfl

theorem expand_exact_file (root : Path) (fs : FS) (pat : Path)
    (hW : pat.all noWildSeg = true) (hf : pat ∈ fs.files) :
    ExpandPathsGlob root fs [pat] = [root ++ pat] := by
  have hm : patMatches fs pat = [pat] := by
    apply filter_eq_single_of_nodup (dedupFirst_nodup _) (mem_entries_of_file hf)
    intro x hx
    rw [matchSegs_noWild pat x hW]
    exact eq_comm
  rw [expandPathsGlob_raw]
  simp only [List.flatMap_cons, List.flatMap_nil, List.append_nil, hm,
    walk_of_file hf, List.map_cons, List.map_nil]
  exact dedupFirst_single _

theorem expand_exact_missing (root : Path) (fs : FS) (pat : Path)
    (hW : pat.all noWildSeg = true) (hne : fs.pathExists pat = false) :
    ExpandPathsGlob root fs [pat] = [] := by
  have hm : patMatches fs pat = [] := by
    apply List.filter_eq_nil_iff.mpr
    intro e he hmatch
    have hpe : pat = e := (matchSegs_noWild pat e hW).mp hmatch
    subst hpe
    rw [pathExists_of_mem_entries he] at hne
    cases hne
  rw [expandPathsGlob_raw]
  simp [hm, dedupFirst, dedupSeen]

theorem expand_leaf_glob (root : Path) (fs : FS) (d : Path) (s : String)
    (hW : d.all noWildSeg = true)
    (hfiles : ∀ e ∈ patMatches fs (d ++ [s]), fs.isFile e = true) :
    ∀ q, q ∈ ExpandPathsGlob root fs [d ++ [s]] ↔
      ∃ n, (d ++ [n]) ∈ fs.files ∧ globMatch s n = true ∧
        q = root ++ (d ++ [n]) := by
  intro q
  constructor
  · intro hq
    have hq2 := mem_of_mem_dedupFirst hq
    rcases List.mem_map.mp hq2 with ⟨f, hf, rfl⟩
    rcases List.mem_flatMap.mp hf with ⟨pat, hpat, hf2⟩
    have hpe : pat = d ++ [s] := List.mem_singleton.mp hpat
    subst hpe
    rcases List.mem_flatMap.mp hf2 with ⟨e, he, hwalk⟩
    have hef : fs.isFile e = true := hfiles e he
    have hw : walk fs e = [e] := walk_of_file (isFile_iff_mem.mp hef)
    rw [hw, List.mem_singleton] at hwalk
    subst hwalk
    have hmatch := (List.mem_filter.mp he).2
    rcases (matchSegs_append_single d s f hW).mp hmatch with ⟨n, rfl, hg⟩
    exact ⟨n, isFile_iff_mem.mp hef, hg, rfl⟩
  · rintro ⟨n, hmem, hg, rfl⟩
    apply mem_dedupFirst_of_mem
    refine List.mem_map.mpr ⟨d ++ [n], ?_, rfl⟩
    refine List.mem_flatMap.mpr ⟨d ++ [s], List.mem_singleton.mpr rfl, ?_⟩
    refine List.mem_flatMap.mpr ⟨d ++ [n], ?_, ?_⟩
    · refine List.mem_filter.mpr ⟨mem_entries_of_file hmem, ?_⟩
      exact (matchSegs_append_single d s (d ++ [n]) hW).mpr ⟨n, rfl, hg⟩
    · rw [walk_of_file hmem]
      exact List.mem_singleton.mpr rfl

theorem expand_single_glob (root : Path) (fs : FS) (s : String)
    (hwf : fs.wellFormed = true) :
    ∀ q, q ∈ ExpandPathsGlob root fs [[s]] ↔
      ∃ g x t, g ∈ fs.files ∧ g = x :: t ∧ globMatch s x = true ∧
        q = root ++ g := by
  intro q
  have hW0 : ([] : Path).all noWildSeg = true := by simp
  constructor
  · intro hq
    have hq2 := mem_of_mem_dedupFirst hq
    rcases List.mem_map.mp hq2 with ⟨f, hf, rfl⟩
    rcases List.mem_flatMap.mp hf with ⟨pat, hpat, hf2⟩
    have hpe : pat = [s] := List.mem_singleton.mp hpat
    subst hpe
    rcases List.mem_flatMap.mp hf2 with ⟨e, he, hwalk⟩
    have hmatch := (List.mem_filter.mp he).2
    rcases (matchSegs_append_single [] s e hW0).mp hmatch with ⟨n, rfl, hg⟩
    by_cases hef : fs.isFile ([] ++ [n]) = true
    · have hw : walk fs ([] ++ [n]) = [[] ++ [n]] :=
        walk_of_file (isFile_iff_mem.mp hef)
      rw [hw, List.mem_singleton] at hwalk
      subst hwalk
      exact ⟨[n], n, [], isFile_iff_mem.mp hef, rfl, hg, rfl⟩
    · have hw : walk fs ([] ++ [n]) =
          fs.files.filter (fun f => isPreOf ([] ++ [n]) f) := by
        unfold walk
        rw [if_neg hef]
      rw [hw] at hwalk
      obtain ⟨hfmem, hpre⟩ := List.mem_filter.mp hwalk
      rcases (isPreOf_iff ([] ++ [n]) f).mp hpre with ⟨t, ht⟩
      refine ⟨f, n, t, hfmem, ?_, hg, rfl⟩
      simpa using ht.symm
  · rintro ⟨g, x, t, hgmem, rfl, hg, rfl⟩
    apply mem_dedupFirst_of_mem
    refine List.mem_map.mpr ⟨x :: t, ?_, rfl⟩
    refine List.mem_flatMap.mpr ⟨[s], List.mem_singleton.mpr rfl, ?_⟩
    refine List.mem_flatMap.mpr ⟨[x], ?_, ?_⟩
    · refine List.mem_filter.mpr ⟨?_, ?_⟩
      · exact (mem_entries_iff fs [x]).mpr (Or.inr ⟨x :: t, hgmem, t, rfl⟩)
      · have : matchSegs ([] ++ [s]) ([] ++ [x]) = true :=
          (matchSegs_append_single [] s ([] ++ [x]) hW0).mpr ⟨x, rfl, hg⟩
        simpa using this
    · by_cases hef : fs.isFile [x] = true
      · have hxg : ([x] : Path) = x :: t := by
          apply (wf_facts hwf).2 [x] (isFile_iff_mem.mp hef) (x :: t) hgmem
          exact (isPreOf_iff [x] (x :: t)).mpr ⟨t, rfl⟩
        rw [walk_of_file (isFile_iff_mem.mp hef), hxg]
        exact List.mem_singleton.mpr rfl
      · have hw : walk fs [x] = fs.files.filter (fun f => isPreOf [x] f) := by
          unfold walk
          rw [if_neg hef]
        rw [hw]
        refine List.mem_filter.mpr ⟨hgmem, ?_⟩
        exact (isPreOf_iff [x] (x :: t)).mpr ⟨t, rfl⟩

/-- C2: a pattern with no wildcard matches only that exact file if present
(and nothing when the path does not exist); a pattern whose wildcard is in
the final segment and whose matches are regular files yields exactly the
direct children of that directory, non-recursively; a single-segment
wildcard pattern matches recursively every file nested anywhere under
directories whose name matches it — in particular over a tree with
dir/sub_dir/file and dir_b/sub_dir_b/file, the pattern dir* yields both
files, dir/sub_dir/* yields the single direct child, and the exact path
yields that file. -/
theorem expandPathsGlob_pattern_semantics :
    (∀ (root : Path) (fs : FS) (pat : Path), pat.all noWildSeg = true →
        (pat ∈ fs.files → ExpandPathsGlob root fs [pat] = [root ++ pat]) ∧
          (fs.pathExists pat = false → ExpandPathsGlob root fs [pat] = [])) ∧
      (∀ (root : Path) (fs : FS) (d : Path) (s : String),
          d.all noWildSeg = true →
          (∀ e ∈ patMatches fs (d ++ [s]), fs.isFile e = true) →
          ∀ q, q ∈ ExpandPathsGlob root fs [d ++ [s]] ↔
            ∃ n, (d ++ [n]) ∈ fs.files ∧ globMatch s n = true ∧
              q = root ++ (d ++ [n])) ∧
      (∀ (root : Path) (fs : FS) (s : String), fs.wellFormed = true →
          ∀ q, q ∈ ExpandPathsGlob root fs [[s]] ↔
            ∃ g x t, g ∈ fs.files ∧ g = x :: t ∧ globMatch s x = true ∧
              q = root ++ g) ∧
      ∀ root : Path,
        ExpandPathsGlob root fsGlob [["dir", "sub_dir", "file"]] =
            [root ++ ["dir", "sub_dir", "file"]] ∧
          ExpandPathsGlob root fsGlob [["dir", "sub_dir", "*"]] =
            [root ++ ["dir", "sub_dir", "file"]] ∧
          ExpandPathsGlob root fsGlob [["dir*"]] =
            [root ++ ["dir", "sub_dir", "file"],
              root ++ ["dir_b", "sub_dir_b", "file"]] := by
  refine ⟨?_, ?_, ?_, ?_⟩
  · intro root fs pat hW
    exact ⟨expand_exact_file root fs pat hW, expand_exact_missing root fs pat hW⟩
  · exact expand_leaf_glob
  · exact expand_single_glob
  · intro root
    refine ⟨?_, ?_, ?_⟩
    · exact expand_exact_file root fsGlob _ (by decide) (by decide)
    · rw [expandPathsGlob_raw]
      have h : [(["dir", "sub_dir", "*"] : Path)].flatMap
            (fun pat => (patMatches fsGlob pat).flatMap (walk fsGlob)) =
          [["dir", "sub_dir", "file"]] := by decide
      rw [h, List.map_cons, List.map_nil]
      exact dedupFirst_single _
    · rw [expandPathsGlob_raw]
      have h : [(["dir*"] : Path)].flatMap
            (fun pat => (patMatches fsGlob pat).flatMap (walk fsGlob)) =
          [["dir", "sub_dir", "file"], ["dir_b", "sub_dir_b", "file"]] := by
        decide
      rw [h, List.map_cons, List.map_cons, List.map_nil]
      apply dedupFirst_pair
      intro hcontra
      have h2 := List.append_cancel_left hcontra
      exact absurd h2 (by decide)

theorem expandPathsGlob_pattern_semantics_witness :
    ExpandPathsGlob ["tmp"] fsGlob [["dir", "sub_dir", "file"]] =
        [["tmp"] ++ ["dir", "sub_dir", "file"]] ∧
      ExpandPathsGlob ["tmp"] fsGlob [["dir", "sub_dir", "*"]] =
        [["tmp"] ++ ["dir", "sub_dir", "file"]] ∧
      ExpandPathsGlob ["tmp"] fsGlob [["dir*"]] =
        [["tmp"] ++ ["dir", "sub_dir", "file"],
          ["tmp"] ++ ["dir_b", "sub_dir_b", "file"]] ∧
      (["tmp"] ++ ["dir", "sub_dir", "file"]) ∈
        ExpandPathsGlob ["tmp"] fsGlob [["dir*"]] := by
  obtain ⟨hexact, hleaf, hsingle, hconc⟩ := expandPathsGlob_pattern_semantics
  obtain ⟨h1, h2, h3⟩ := hconc ["tmp"]
  refine ⟨h1, h2, h3, ?_⟩
  exact (hsingle ["tmp"] fsGlob "dir*" (by decide)
      (["tmp"] ++ ["dir", "sub_dir", "file"])).mpr
    ⟨["dir", "sub_dir", "file"], "dir", ["sub_dir", "file"], by decide, rfl,
      by decide, rfl⟩

/-- A character that may appear in a placeholder identifier. -/
def identChar (c : Char) : Bool := c.isAlphanum || c == '_'

/-- The bare key token ends here: the text is exhausted or continues with a
non-identifier character. -/
def boundaryOk : List Char → Bool
  | [] => true
  | c :: _ => !identChar c

/-- Modelled from the spec: the body of `Expand` is not among the sources
(only its tests are).  One left-to-right pass over the text replaces every
occurrence of the brace form of the key and of the bare key token, the
latter only when bounded by a non-identifier character or the end of the
text; fuel keeps the recursion structural. -/
def expandChars (key value : List Char) : Nat → List Char → List Char
  | 0, t => t
  | n + 1, t =>
    match t with
    | [] => []
    | c :: rest =>
      if c == '$' && isPreOf ('\x7b' :: (key ++ ['\x7d'])) rest then
        value ++ expandChars key value n (rest.drop (key.length + 2))
      else if c == '$' && isPreOf key rest && boundaryOk (rest.drop key.length) then
        value ++ expandChars key value n (rest.drop key.length)
      else
        c :: expandChars key value n rest

/-- Modelled from the spec: `Expand text key value` substitutes the key's
placeholders in the text. -/
def Expand (text key value : String) : String :=
  String.mk (expandChars key.data value.data text.data.length text.data)

theorem expandChars_no_dollar (key value : List Char) :
    ∀ (n : Nat) (t : List Char), t.length ≤ n → '$' ∉ t →
      expandChars key value n t = t := by
  intro n
  induction n with
  | zero =>
    intro t _ _
    rfl
  | succ n ih =>
    intro t hlen hd
    cases t with
    | nil => rfl
    | cons c rest =>
      have hc : (c == '$') = false := by
        simp only [beq_eq_false_iff_ne, ne_eq]
        intro hcc
        exact hd (hcc ▸ List.mem_cons_self _ _)
      have hrest : '$' ∉ rest := fun h => hd (List.mem_cons_of_mem _ h)
      have hlen2 : rest.length ≤ n := by simpa using hlen
      simp [expandChars, hc, ih rest hlen2 hrest]

/-- The character list holds no dollar sign, hence no placeholder start. -/
def noDollar : List Char → Bool
  | [] => true
  | c :: l => (c != '$') && noDollar l

/-- One placeholder occurrence in a decomposed text: the literal before it,
the key it references, and whether it is the brace form. -/
abbrev Piece := List Char × List Char × Bool

/-- The characters of a placeholder token: the brace form or the bare form
of its key. -/
def tokenOf (k : List Char) (b : Bool) : List Char :=
  if b then '$' :: '\x7b' :: (k ++ ['\x7d']) else '$' :: k

/-- Reassemble a decomposed text: each literal followed by its token, then
the trailing literal. -/
def assemble : List Piece → List Char → List Char
  | [], last => last
  | (lit, k, b) :: rest, last => lit ++ tokenOf k b ++ assemble rest last

/-- The expected expansion of a decomposed text for a given key: tokens of
that key become the value, every other token stays. -/
def substituted (key value : List Char) : List Piece → List Char → List Char
  | [], last => last
  | (lit, k, b) :: rest, last =>
    lit ++ (if k == key then value else tokenOf k b) ++
      substituted key value rest last

/-- A decomposition is admissible when the literals carry no dollar sign
(so the listed tokens are all the occurrences), every token key is a
nonempty identifier, and each bare token is bounded by a non-identifier
character or the end of the text. -/
def piecesOk : List Piece → List Char → Bool
  | [], last => noDollar last
  | (lit, k, b) :: rest, last =>
    noDollar lit && (k != ([] : List Char)) && k.all identChar &&
      (b || boundaryOk (assemble rest last)) && piecesOk rest last

/-- The canonical run of the scanner, with fuel the length of the text. -/
def scanKey (key value t : List Char) : List Char :=
  expandChars key value t.length t

theorem expandChars_succ (key value : List Char) (n : Nat) (c : Char)
    (rest : List Char) :
    expandChars key value (n + 1) (c :: rest) =
      if c == '$' && isPreOf ('\x7b' :: (key ++ ['\x7d'])) rest then
        value ++ expandChars key value n (rest.drop (key.length + 2))
      else if c == '$' && isPreOf key rest && boundaryOk (rest.drop key.length) then
        value ++ expandChars key value n (rest.drop key.length)
      else c :: expandChars key value n rest := rfl

theorem expandChars_fuel (key value : List Char) :
    ∀ (n : Nat) (t : List Char), t.length ≤ n →
      expandChars key value n t = scanKey key value t := by
  intro n
  induction n using Nat.strong_induction_on with
  | _ n ih =>
    intro t hlen
    cases n with
    | zero =>
      have ht : t = [] := List.length_eq_zero.mp (Nat.le_zero.mp hlen)
      subst ht
      rfl
    | succ m =>
      cases t with
      | nil => rfl
      | cons c rest =>
        have hr : rest.length ≤ m := by simpa using hlen
        rw [show scanKey key value (c :: rest) =
          expandChars key value (rest.length + 1) (c :: rest) from rfl]
        rw [expandChars_succ, expandChars_succ]
        by_cases h1 : (c == '$' && isPreOf ('\x7b' :: (key ++ ['\x7d'])) rest) = true
        · rw [if_pos h1, if_pos h1]
          have hd1 : (rest.drop (key.length + 2)).length ≤ rest.length := by
            rw [List.length_drop]
            omega
          rw [ih m (by omega) _ (le_trans hd1 hr), ih rest.length (by omega) _ hd1]
        · rw [if_neg h1, if_neg h1]
          by_cases h2 :
              (c == '$' && isPreOf key rest && boundaryOk (rest.drop key.length)) = true
          · rw [if_pos h2, if_pos h2]
            have hd2 : (rest.drop key.length).length ≤ rest.length := by
              rw [List.length_drop]
              omega
            rw [ih m (by omega) _ (le_trans hd2 hr), ih rest.length (by omega) _ hd2]
          · rw [if_neg h2, if_neg h2]
            rw [ih m (by omega) rest hr]
            rfl

theorem identChar_beq_false {c d : Char} (hc : identChar c = true)
    (hd : identChar d = false) : (d == c) = false ∧ (c == d) = false := by
  have hne : c ≠ d := by
    intro h
    rw [h, hd] at hc
    cases hc
  exact ⟨beq_eq_false_iff_ne.mpr (Ne.symm hne), beq_eq_false_iff_ne.mpr hne⟩

theorem identChar_noDollar :
    ∀ l : List Char, l.all identChar = true → noDollar l = true := by
  intro l
  induction l with
  | nil => intro _; rfl
  | cons c l ih =>
    intro h
    obtain ⟨hc, hl⟩ := all_cons_split h
    have hcd : (c == '$') = false :=
      (identChar_beq_false hc (by decide)).2
    simp only [noDollar, Bool.and_eq_true, bne, hcd]
    exact ⟨rfl, ih hl⟩

theorem noDollar_append :
    ∀ a b : List Char, noDollar (a ++ b) = (noDollar a && noDollar b) := by
  intro a b
  induction a with
  | nil => simp [noDollar]
  | cons c a ih => simp [noDollar, ih, Bool.and_assoc]

theorem isPreOf_self {α : Type} [DecidableEq α] (p t : List α) :
    isPreOf p (p ++ t) = true :=
  (isPreOf_iff p (p ++ t)).mpr ⟨t, rfl⟩

theorem scanKey_cons (key value : List Char) (c : Char) (rest : List Char) :
    scanKey key value (c :: rest) =
      if c == '$' && isPreOf ('\x7b' :: (key ++ ['\x7d'])) rest then
        value ++ expandChars key value rest.length (rest.drop (key.length + 2))
      else if c == '$' && isPreOf key rest && boundaryOk (rest.drop key.length) then
        value ++ expandChars key value rest.length (rest.drop key.length)
      else c :: scanKey key value rest := rfl

theorem scanKey_noDollar (key value : List Char) :
    ∀ t : List Char, noDollar t = true → scanKey key value t = t := by
  intro t
  induction t with
  | nil => intro _; rfl
  | cons c rest ih =>
    intro h
    simp only [noDollar, Bool.and_eq_true, bne] at h
    obtain ⟨hc, hrest⟩ := h
    have hcd : (c == '$') = false := by
      cases hcc : c == '$'
      · rfl
      · rw [hcc] at hc
        cases hc
    rw [scanKey_cons, if_neg (by simp [hcd]), if_neg (by simp [hcd]), ih hrest]

theorem scanKey_lit (key value : List Char) :
    ∀ lit t : List Char, noDollar lit = true →
      scanKey key value (lit ++ t) = lit ++ scanKey key value t := by
  intro lit
  induction lit with
  | nil => intro t _; rfl
  | cons c lit2 ih =>
    intro t h
    simp only [noDollar, Bool.and_eq_true, bne] at h
    obtain ⟨hc, hlit⟩ := h
    have hcd : (c == '$') = false := by
      cases hcc : c == '$'
      · rfl
      · rw [hcc] at hc
        cases hc
    rw [List.cons_append, scanKey_cons, if_neg (by simp [hcd]),
      if_neg (by simp [hcd]), ih t hlit, List.cons_append]

theorem scanKey_brace (key value t : List Char) :
    scanKey key value (('$' :: '\x7b' :: (key ++ ['\x7d'])) ++ t) =
      value ++ scanKey key value t := by
  have hshape : ('$' :: '\x7b' :: (key ++ ['\x7d'])) ++ t =
      '$' :: (('\x7b' :: (key ++ ['\x7d'])) ++ t) := by simp
  rw [hshape, scanKey_cons,
    if_pos (by simpa [List.append_assoc] using
      isPreOf_self ('\x7b' :: (key ++ ['\x7d'])) t)]
  have hlen : ('\x7b' :: (key ++ ['\x7d'])).length = key.length + 2 := by
    simp
  have hdrop : (('\x7b' :: (key ++ ['\x7d'])) ++ t).drop (key.length + 2) = t := by
    rw [← hlen, List.drop_left]
  rw [hdrop]
  have hfl : t.length ≤ (('\x7b' :: (key ++ ['\x7d'])) ++ t).length := by
    simp only [List.length_append, List.length_cons]
    omega
  rw [expandChars_fuel key value _ t hfl]

theorem scanKey_bare (key value t : List Char) (hk : key ≠ [])
    (hkid : key.all identChar = true) (hb : boundaryOk t = true) :
    scanKey key value (('$' :: key) ++ t) = value ++ scanKey key value t := by
  have hshape : ('$' :: key) ++ t = '$' :: (key ++ t) := by simp
  rw [hshape, scanKey_cons]
  have h1 : isPreOf ('\x7b' :: (key ++ ['\x7d'])) (key ++ t) = false := by
    cases key with
    | nil => exact absurd rfl hk
    | cons a k2 =>
      have ha : identChar a = true := (all_cons_split hkid).1
      have : ('\x7b' == a) = false := (identChar_beq_false ha (by decide)).1
      simp [isPreOf, this]
  have hdrop : (key ++ t).drop key.length = t := List.drop_left key t
  rw [if_neg (by simp [h1]),
    if_pos (by simp [isPreOf_self, hdrop, hb]), hdrop]
  have hfl : t.length ≤ (key ++ t).length := by simp
  rw [expandChars_fuel key value _ t hfl]

theorem braceNoConfuse :
    ∀ (key k2 : List Char), key.all identChar = true → k2.all identChar = true →
      key ≠ k2 → ∀ X : List Char,
      isPreOf (key ++ ['\x7d']) (k2 ++ '\x7d' :: X) = false := by
  intro key
  induction key with
  | nil =>
    intro k2 _ hk2id hne X
    cases k2 with
    | nil => exact absurd rfl hne
    | cons b k2t =>
      have hb : identChar b = true := (all_cons_split hk2id).1
      have hbne : ('\x7d' == b) = false := (identChar_beq_false hb (by decide)).1
      simp [isPreOf, hbne]
  | cons a kt ih =>
    intro k2 hkid hk2id hne X
    have ha : identChar a = true := (all_cons_split hkid).1
    have hat : kt.all identChar = true := (all_cons_split hkid).2
    cases k2 with
    | nil =>
      have hane : (a == '\x7d') = false := (identChar_beq_false ha (by decide)).2
      simp [isPreOf, hane]
    | cons b k2t =>
      have hbt : k2t.all identChar = true := (all_cons_split hk2id).2
      by_cases hab : a = b
      · subst hab
        have hnet : kt ≠ k2t := by
          intro h
          exact hne (h ▸ rfl)
        simp [isPreOf, ih k2t hat hbt hnet X]
      · simp [isPreOf, beq_eq_false_iff_ne.mpr hab]

theorem bareNoConfuse :
    ∀ (k2 key X : List Char), key.all identChar = true →
      k2.all identChar = true → key ≠ k2 → k2 ≠ [] → boundaryOk X = true →
      (isPreOf key (k2 ++ X) && boundaryOk ((k2 ++ X).drop key.length)) = false := by
  intro k2
  induction k2 with
  | nil => intro key X _ _ _ hk2 _; exact absurd rfl hk2
  | cons b k2t ih =>
    intro key X hkid hk2id hne _ hb
    have hbid : identChar b = true := (all_cons_split hk2id).1
    have hbt : k2t.all identChar = true := (all_cons_split hk2id).2
    cases key with
    | nil =>
      have hbd : boundaryOk (b :: (k2t ++ X)) = false := by
        simp [boundaryOk, hbid]
      simp [isPreOf, hbd]
    | cons a kt =>
      have haid : identChar a = true := (all_cons_split hkid).1
      have hat : kt.all identChar = true := (all_cons_split hkid).2
      by_cases hab : a = b
      · subst hab
        have hstep : (isPreOf (a :: kt) ((a :: k2t) ++ X) &&
            boundaryOk (((a :: k2t) ++ X).drop (a :: kt).length)) =
            (isPreOf kt (k2t ++ X) && boundaryOk ((k2t ++ X).drop kt.length)) := by
          simp [isPreOf, List.cons_append]
        rw [hstep]
        cases hk2t : k2t with
        | nil =>
          have hktne : kt ≠ [] := by
            intro h
            exact hne (by rw [h, hk2t])
          cases kt with
          | nil => exact absurd rfl hktne
          | cons c ktt =>
            have hcid : identChar c = true := (all_cons_split hat).1
            cases X with
            | nil => simp [isPreOf]
            | cons x Xt =>
              have hxid : identChar x = false := by
                simp only [boundaryOk, Bool.not_eq_true'] at hb
                exact hb
              have hcx : (c == x) = false := (identChar_beq_false hcid hxid).2
              simp [isPreOf, hcx]
        | cons b2 k2tt =>
          have hnet : kt ≠ k2t := by
            intro h
            exact hne (h ▸ rfl)
          rw [← hk2t]
          exact ih kt X hat hbt hnet (by rw [hk2t]; exact List.cons_ne_nil _ _) hb
      · simp [isPreOf, beq_eq_false_iff_ne.mpr hab]

theorem scanKey_foreign_brace (key k2 value t : List Char) (hk : key ≠ [])
    (hkid : key.all identChar = true) (hk2id : k2.all identChar = true)
    (hne : key ≠ k2) :
    scanKey key value (('$' :: '\x7b' :: (k2 ++ ['\x7d'])) ++ t) =
      ('$' :: '\x7b' :: (k2 ++ ['\x7d'])) ++ scanKey key value t := by
  have hshape : ('$' :: '\x7b' :: (k2 ++ ['\x7d'])) ++ t =
      '$' :: (('\x7b' :: (k2 ++ ['\x7d'])) ++ t) := by simp
  rw [hshape, scanKey_cons]
  have htext : ('\x7b' :: (k2 ++ ['\x7d'])) ++ t =
      '\x7b' :: (k2 ++ '\x7d' :: t) := by simp
  have h1 : isPreOf ('\x7b' :: (key ++ ['\x7d']))
      (('\x7b' :: (k2 ++ ['\x7d'])) ++ t) = false := by
    rw [htext]
    show ('\x7b' == '\x7b' && isPreOf (key ++ ['\x7d']) (k2 ++ '\x7d' :: t)) = false
    rw [braceNoConfuse key k2 hkid hk2id hne t]
    simp
  have h2 : isPreOf key (('\x7b' :: (k2 ++ ['\x7d'])) ++ t) = false := by
    rw [htext]
    cases key with
    | nil => exact absurd rfl hk
    | cons a kt =>
      have ha : identChar a = true := (all_cons_split hkid).1
      show (a == '\x7b' && isPreOf kt (k2 ++ '\x7d' :: t)) = false
      rw [(identChar_beq_false ha (by decide)).2]
      simp
  rw [if_neg (by intro hcond; simp only [h1] at hcond; simp at hcond),
    if_neg (by intro hcond; simp only [h2] at hcond; simp at hcond)]
  have hlit : noDollar ('\x7b' :: (k2 ++ ['\x7d'])) = true := by
    simp [noDollar, noDollar_append, identChar_noDollar k2 hk2id]
  rw [scanKey_lit key value _ t hlit]
  simp

theorem scanKey_foreign_bare (key k2 value t : List Char) (_hk : key ≠ [])
    (hk2 : k2 ≠ []) (hkid : key.all identChar = true)
    (hk2id : k2.all identChar = true) (hne : key ≠ k2)
    (hb : boundaryOk t = true) :
    scanKey key value (('$' :: k2) ++ t) = ('$' :: k2) ++ scanKey key value t := by
  have hshape : ('$' :: k2) ++ t = '$' :: (k2 ++ t) := by simp
  rw [hshape, scanKey_cons]
  have h1 : isPreOf ('\x7b' :: (key ++ ['\x7d'])) (k2 ++ t) = false := by
    cases k2 with
    | nil => exact absurd rfl hk2
    | cons b k2t =>
      have hbid : identChar b = true := (all_cons_split hk2id).1
      rw [List.cons_append]
      show ('\x7b' == b && isPreOf (key ++ ['\x7d']) (k2t ++ t)) = false
      rw [(identChar_beq_false hbid (by decide)).1]
      simp
  have h2 := bareNoConfuse k2 key t hkid hk2id hne hk2 hb
  rw [if_neg (by simp [h1]), if_neg ?hc2]
  case hc2 =>
    simp only [Bool.and_eq_true]
    rintro ⟨⟨-, hp⟩, hbo⟩
    rw [hp, hbo] at h2
    simp at h2
  have hlit : noDollar k2 = true := identChar_noDollar k2 hk2id
  rw [scanKey_lit key value k2 t hlit]
  simp

theorem scanKey_assemble (key value : List Char) (hk : key ≠ [])
    (hkid : key.all identChar = true) :
    ∀ (pieces : List Piece) (last : List Char), piecesOk pieces last = true →
      scanKey key value (assemble pieces last) =
        substituted key value pieces last := by
  intro pieces
  induction pieces with
  | nil =>
    intro last hok
    exact scanKey_noDollar key value last hok
  | cons p rest ih =>
    obtain ⟨lit, k, b⟩ := p
    intro last hok
    simp only [piecesOk, Bool.and_eq_true] at hok
    obtain ⟨⟨⟨⟨hlit, hknil⟩, hkid2⟩, hbound⟩, hrest⟩ := hok
    have hkne : k ≠ [] := by simpa using hknil
    simp only [assemble, substituted]
    rw [List.append_assoc, scanKey_lit key value lit _ hlit]
    by_cases hkk : k = key
    · rw [hkk, beq_self_eq_true, if_pos rfl]
      cases b with
      | true =>
        rw [show tokenOf key true = '$' :: '\x7b' :: (key ++ ['\x7d']) from rfl,
          scanKey_brace, ih last hrest]
        simp
      | false =>
        have hbo : boundaryOk (assemble rest last) = true := by
          simpa using hbound
        rw [show tokenOf key false = '$' :: key from rfl,
          show ('$' : Char) :: key ++ assemble rest last =
            (('$' : Char) :: key) ++ assemble rest last from rfl,
          scanKey_bare key value (assemble rest last) hk hkid hbo,
          ih last hrest]
        simp
    · have hbeq : (k == key) = false := beq_eq_false_iff_ne.mpr hkk
      rw [hbeq, if_neg (by simp)]
      have hnek : key ≠ k := fun h => hkk h.symm
      cases b with
      | true =>
        rw [show tokenOf k true = '$' :: '\x7b' :: (k ++ ['\x7d']) from rfl,
          scanKey_foreign_brace key k value (assemble rest last) hk hkid
            hkid2 hnek, ih last hrest]
        simp
      | false =>
        have hbo : boundaryOk (assemble rest last) = true := by
          simpa using hbound
        rw [show tokenOf k false = '$' :: k from rfl,
          show ('$' : Char) :: k ++ assemble rest last =
            (('$' : Char) :: k) ++ assemble rest last from rfl,
          scanKey_foreign_bare key k value (assemble rest last) hk hkne
            hkid hkid2 hnek hbo, ih last hrest]
        simp

/-- C4: for every text, key and value, Expand replaces every occurrence of
the brace form and of the bare token of the key by the value and leaves
every placeholder of a different key unchanged, keys sharing the key as a
proper prefix included: any text decomposed into dollar-free literals
around placeholder tokens of arbitrary nonempty identifier keys, each bare
token bounded by a non-identifier character or the end of the text, is
expanded by substituting exactly the tokens whose key is the given key;
the six recorded test cases hold; a text without a dollar sign is left
unchanged. -/
theorem expand_replaces_key_only :
    (∀ (key value : List Char) (pieces : List Piece) (last : List Char),
        key ≠ [] → key.all identChar = true → piecesOk pieces last = true →
        Expand (String.mk (assemble pieces last)) (String.mk key)
            (String.mk value) =
          String.mk (substituted key value pieces last)) ∧
      Expand "BEFORE[${key}]AFTER" "key" "VALUE" = "BEFORE[VALUE]AFTER" ∧
      Expand "BEFORE[$key]AFTER" "key" "VALUE" = "BEFORE[VALUE]AFTER" ∧
      Expand "BEFORE[$key][${key}][$key][${key}]AFTER" "key" "VALUE" =
        "BEFORE[VALUE][VALUE][VALUE][VALUE]AFTER" ∧
      Expand "BEFORE[$key1][${key1}]AFTER" "key" "VALUE" =
        "BEFORE[$key1][${key1}]AFTER" ∧
      Expand "${key}" "key" "VALUE" = "VALUE" ∧
      Expand "$key" "key" "VALUE" = "VALUE" ∧
      ∀ (text key value : String), '$' ∉ text.data →
        Expand text key value = text := by
  refine ⟨?_, by decide, by decide, by decide, by decide, by decide, by decide, ?_⟩
  · intro key value pieces last hk hkid hok
    exact congrArg String.mk (scanKey_assemble key value hk hkid pieces last hok)
  · intro text key value hd
    unfold Expand
    rw [expandChars_no_dollar key.data value.data text.data.length text.data
      (Nat.le_refl _) hd]

theorem expand_replaces_key_only_witness :
    (Expand (String.mk (assemble
            [("A[".data, "key".data, false), ("][".data, "key1".data, true)]
            "]Z".data))
          (String.mk "key".data) (String.mk "VV".data) =
        String.mk (substituted "key".data "VV".data
          [("A[".data, "key".data, false), ("][".data, "key1".data, true)]
          "]Z".data)) ∧
      String.mk (assemble
          [("A[".data, "key".data, false), ("][".data, "key1".data, true)]
          "]Z".data) = "A[$key][${key1}]Z" ∧
      String.mk (substituted "key".data "VV".data
          [("A[".data, "key".data, false), ("][".data, "key1".data, true)]
          "]Z".data) = "A[VV][${key1}]Z" :=
  ⟨expand_replaces_key_only.1 "key".data "VV".data
      [("A[".data, "key".data, false), ("][".data, "key1".data, true)]
      "]Z".data (by decide) (by decide) (by decide),
    by decide, by decide⟩

/-- A URL-scheme separator "://" occurs somewhere in the reference. -/
def hasSchemeSep : List Char → Bool
  | [] => false
  | c :: rest => (c == ':' && isPreOf ['/', '/'] rest) || hasSchemeSep rest

/-- An SSH-style git shorthand: an at sign followed later by a slash or a
colon (user at host, then a path). -/
def hasGitAt : List Char → Bool
  | [] => false
  | c :: rest =>
    (c == '@' && rest.any (fun d => d == '/' || d == ':')) || hasGitAt rest

/-- Modelled from the spec: remote detection is syntactic; a reference with
a URL scheme or an SSH-style git shorthand is remote regardless of the
filesystem. -/
def isRemoteRef (s : String) : Bool := hasSchemeSep s.data || hasGitAt s.data

/-- Split a character list at slashes. -/
def splitSegsAux (cur : List Char) : List Char → List (List Char)
  | [] => [cur.reverse]
  | c :: cs =>
    if c == '/' then cur.reverse :: splitSegsAux [] cs
    else splitSegsAux (c :: cur) cs

/-- The segments of a reference string, empty segments dropped. -/
def refSegs (s : String) : Path :=
  ((splitSegsAux [] s.data).map (fun l => String.mk l)).filter (fun t => t != "")

/-- The reference is an absolute path (it starts with a slash). -/
def isAbsRef (s : String) : Bool :=
  match s.data with
  | '/' :: _ => true
  | _ => false

/-- A relative reference is resolved against the root; an absolute one is
taken as-is. -/
def resolveRef (root : Path) (s : String) : Path :=
  if isAbsRef s then refSegs s else root ++ refSegs s

/-- Modelled from the spec: the body of `IsLocalFile` is not among the
sources (only its tests are).  A remote reference is rejected before any
filesystem check; otherwise the reference is resolved against the root and
the result is the existence of the named entry. -/
def IsLocalFile (fs : FS) (ref : String) (root : Path) : Bool :=
  if isRemoteRef ref then false else fs.pathExists (resolveRef root ref)

/-- The filesystem of the `TestIsWorkspaceFile` and `TestAbsFile` fixtures:
one regular file named file under the directory tmp. -/
def fsLocal : FS := ⟨[["tmp", "file"]]⟩

/-- C5: IsLocalFile is true iff the reference is not remote and resolves
(relative to root, or as-is when absolute) to an existing entry; a remote
reference is false on every filesystem and root, with no filesystem check;
the test references behave as the tests record. -/
theorem isLocalFile_semantics :
    (∀ (fs : FS) (ref : String) (root : Path),
        IsLocalFile fs ref root =
          (!isRemoteRef ref && fs.pathExists (resolveRef root ref))) ∧
      (∀ (fs fs2 : FS) (ref : String) (root root2 : Path),
          isRemoteRef ref = true →
          IsLocalFile fs ref root = false ∧
            IsLocalFile fs ref root = IsLocalFile fs2 ref root2) ∧
      IsLocalFile fsLocal "file" ["tmp"] = true ∧
      IsLocalFile fsLocal "/tmp/file" ["tmp"] = true ∧
      IsLocalFile fsLocal "does-not-exists" ["tmp"] = false ∧
      IsLocalFile fsLocal "git@example.com/example-repo" ["tmp"] = false ∧
      IsLocalFile fsLocal "https://example.com/example-repo" ["tmp"] = false := by
  refine ⟨?_, ?_, by decide, by decide, by decide, by decide, by decide⟩
  · intro fs ref root
    unfold IsLocalFile
    cases h : isRemoteRef ref <;> simp [h]
  · intro fs fs2 ref root root2 h
    unfold IsLocalFile
    rw [h]
    exact ⟨rfl, rfl⟩

theorem isLocalFile_semantics_witness :
    IsLocalFile fsLocal "git@example.com/example-repo" ["tmp"] = false ∧
      IsLocalFile fsLocal "git@example.com/example-repo" ["tmp"] =
        IsLocalFile (FS.mk []) "git@example.com/example-repo" ["elsewhere"] :=
  isLocalFile_semantics.2.1 fsLocal (FS.mk []) "git@example.com/example-repo"
    ["tmp"] ["elsewhere"] (by decide)

theorem wf_file_not_dir {fs : FS} (hwf : fs.wellFormed = true) {p : Path}
    (hf : fs.isFile p = true) : fs.isDir p = false := by
  obtain ⟨hne, hnest⟩ := wf_facts hwf
  have hp : p ∈ fs.files := isFile_iff_mem.mp hf
  unfold FS.isDir
  rw [Bool.or_eq_false_iff]
  constructor
  · exact beq_eq_false_iff_ne.mpr (hne p hp)
  · rw [List.any_eq_false]
    intro g hg
    rw [Bool.and_eq_true]
    rintro ⟨hpre, hne2⟩
    exact bne_iff_ne.mp hne2 (hnest p hp g hg hpre)

/-- Rendering of a path as an absolute path string. -/
def renderPath : Path → String
  | [] => "/"
  | [s] => "/" ++ s
  | s :: rest => "/" ++ s ++ renderPath rest

/-- Modelled from the spec: the body of `AbsFile` is not among the sources
(only its tests are).  The name is resolved under the root; a directory is
rejected with a message stating the path is a directory, a missing path
with a not-found error, and a regular file succeeds with its absolute
path. -/
def AbsFile (fs : FS) (root : Path) (name : String) : Except String String :=
  let p := root ++ refSegs name
  if fs.isDir p then Except.error (renderPath p ++ " is a directory")
  else if fs.isFile p then Except.ok (renderPath p)
  else Except.error (renderPath p ++ ": no such file or directory")

/-- C6: on a well-formed filesystem, AbsFile succeeds exactly when the
resolved path names a regular file, and then returns its absolute path; a
directory fails with a message stating the path is a directory, so the
empty name fails naming the root; a missing path fails with a not-found
error. -/
theorem absFile_semantics :
    (∀ (fs : FS) (root : Path) (name : String), fs.wellFormed = true →
        (AbsFile fs root name =
            Except.ok (renderPath (root ++ refSegs name)) ↔
          fs.isFile (root ++ refSegs name) = true)) ∧
      (∀ (fs : FS) (root : Path) (name : String),
          fs.isDir (root ++ refSegs name) = true →
          AbsFile fs root name =
            Except.error (renderPath (root ++ refSegs name) ++ " is a directory")) ∧
      (∀ (fs : FS) (root : Path) (name : String),
          fs.pathExists (root ++ refSegs name) = false →
          AbsFile fs root name =
            Except.error
              (renderPath (root ++ refSegs name) ++ ": no such file or directory")) ∧
      AbsFile fsLocal ["tmp"] "file" = Except.ok "/tmp/file" ∧
      AbsFile fsLocal ["tmp"] "" = Except.error "/tmp is a directory" ∧
      AbsFile fsLocal ["tmp"] "does-not-exist" =
        Except.error "/tmp/does-not-exist: no such file or directory" := by
  refine ⟨?_, ?_, ?_, by decide, by decide, by decide⟩
  · intro fs root name hwf
    unfold AbsFile
    constructor
    · intro h
      by_cases hdir : fs.isDir (root ++ refSegs name) = true
      · rw [if_pos hdir] at h
        cases h
      · rw [if_neg hdir] at h
        by_cases hfile : fs.isFile (root ++ refSegs name) = true
        · exact hfile
        · rw [if_neg hfile] at h
          cases h
    · intro hfile
      rw [if_neg (by simp [wf_file_not_dir hwf hfile]), if_pos hfile]
  · intro fs root name hdir
    unfold AbsFile
    rw [if_pos hdir]
  · intro fs root name hne
    unfold AbsFile
    rw [FS.pathExists, Bool.or_eq_false_iff] at hne
    rw [if_neg (by simp [hne.2]), if_neg (by simp [hne.1])]

theorem absFile_semantics_witness :
    AbsFile fsLocal ["tmp"] "file" =
        Except.ok (renderPath (["tmp"] ++ refSegs "file")) ∧
      AbsFile fsLocal ["tmp"] "sub" =
        Except.error
          (renderPath (["tmp"] ++ refSegs "sub") ++ ": no such file or directory") :=
  ⟨(absFile_semantics.1 fsLocal ["tmp"] "file" (by decide)).mpr (by decide),
    absFile_semantics.2.2.1 fsLocal ["tmp"] "sub" (by decide)⟩

/-- A per-scope configuration record; the key visible in this fragment is
default-repo, a string whose zero value is the empty string. -/
structure ContextConfig where
  defaultRepo : String
deriving DecidableEq

/-- Zero-valued context record. -/
def emptyContextConfig : ContextConfig := ⟨""⟩

/-- Modelled from the spec: the config record's field registry; locating a
field by key fails with an unknown-key error, and the value is stored as
given, the empty string being the field's zero value. -/
def setCfgField (c : ContextConfig) (key value : String) :
    Except String ContextConfig :=
  if key == "default-repo" then Except.ok { c with defaultRepo := value }
  else Except.error ("unknown key " ++ key)

/-- The persisted configuration: one global record and the ordered mapping
of context names to records. -/
structure GlobalConfig where
  globalCfg : ContextConfig
  contexts : List (String × ContextConfig)
deriving DecidableEq

/-- Look a context name up in the ordered mapping. -/
def lookupName : List (String × ContextConfig) → String → Option ContextConfig
  | [], _ => none
  | (n, c) :: rest, name => if n == name then some c else lookupName rest name

/-- The record of a named context, a zero-valued one when absent. -/
def lookupCtx (cfg : GlobalConfig) (name : String) : ContextConfig :=
  match lookupName cfg.contexts name with
  | some c => c
  | none => emptyContextConfig

/-- Replace a named context's record, appending it when absent. -/
def updateCtx : List (String × ContextConfig) → String → ContextConfig →
    List (String × ContextConfig)
  | [], name, c => [(name, c)]
  | (n, c0) :: rest, name, c =>
    if n == name then (n, c) :: rest else (n, c0) :: updateCtx rest name c

/-- The ambient flags and configuration the config commands read. -/
structure ConfigEnv where
  global : Bool
  kubecontext : String
  cfg : GlobalConfig
deriving DecidableEq

/-- Modelled from the spec: the body of `setConfigValue` is not among the
sources.  It targets the global record when the global flag is set and the
resolved context's record (created when absent) otherwise, sets the field
named by the key, and returns the full rewritten configuration. -/
def setConfigValue (env : ConfigEnv) (name value : String) :
    Except String GlobalConfig :=
  if env.global then
    match setCfgField env.cfg.globalCfg name value with
    | Except.ok c => Except.ok { env.cfg with globalCfg := c }
    | Except.error e => Except.error e
  else
    match setCfgField (lookupCtx env.cfg env.kubecontext) name value with
    | Except.ok c =>
      Except.ok
        { env.cfg with contexts := updateCtx env.cfg.contexts env.kubecontext c }
    | Except.error e => Except.error e

/-- Translation of `unsetConfigValue` from unset.go: unsetting a key is
setting it to the empty string. -/
def unsetConfigValue (env : ConfigEnv) (name : String) :
    Except String GlobalConfig :=
  setConfigValue env name ""

theorem lookupName_updateCtx :
    ∀ (l : List (String × ContextConfig)) (name : String) (c : ContextConfig),
      lookupName (updateCtx l name c) name = some c := by
  intro l
  induction l with
  | nil => intro name c; simp [updateCtx, lookupName]
  | cons p rest ih =>
    intro name c
    obtain ⟨n, c0⟩ := p
    by_cases h : (n == name) = true
    · simp [updateCtx, lookupName, h]
    · simp only [updateCtx, lookupName, h, Bool.false_eq_true, if_false,
        if_neg]
      exact ih name c

/-- C7: unsetting a key is exactly setting it to the empty string, one code
path shared with set; on success the targeted field holds its type's zero
value (the empty string). -/
theorem unset_is_set_empty :
    (∀ (env : ConfigEnv) (name : String),
        unsetConfigValue env name = setConfigValue env name "") ∧
      ∀ (env : ConfigEnv) (cfg2 : GlobalConfig),
        setConfigValue env "default-repo" "" = Except.ok cfg2 →
        (if env.global then cfg2.globalCfg.defaultRepo
          else (lookupCtx cfg2 env.kubecontext).defaultRepo) = "" := by
  constructor
  · intro env name
    rfl
  · intro env cfg2 h
    unfold setConfigValue setCfgField at h
    by_cases hg : env.global = true
    · rw [if_pos hg, if_pos (by decide)] at h
      injection h with h2
      rw [if_pos hg, ← h2]
    · rw [if_neg hg, if_pos (by decide)] at h
      injection h with h2
      rw [if_neg hg, ← h2]
      unfold lookupCtx
      rw [lookupName_updateCtx]

theorem unset_is_set_empty_witness :
    unsetConfigValue ⟨true, "ctx", ⟨⟨"gcr.io/repo"⟩, []⟩⟩ "default-repo" =
        setConfigValue ⟨true, "ctx", ⟨⟨"gcr.io/repo"⟩, []⟩⟩ "default-repo" "" ∧
      (if (⟨true, "ctx", ⟨⟨"gcr.io/repo"⟩, []⟩⟩ : ConfigEnv).global then
          (⟨⟨""⟩, []⟩ : GlobalConfig).globalCfg.defaultRepo
        else (lookupCtx ⟨⟨""⟩, []⟩
            (⟨true, "ctx", ⟨⟨"gcr.io/repo"⟩, []⟩⟩ : ConfigEnv).kubecontext).defaultRepo) =
        "" :=
  ⟨unset_is_set_empty.1 ⟨true, "ctx", ⟨⟨"gcr.io/repo"⟩, []⟩⟩ "default-repo",
    unset_is_set_empty.2 ⟨true, "ctx", ⟨⟨"gcr.io/repo"⟩, []⟩⟩ ⟨⟨""⟩, []⟩
      (by decide)⟩

/-- Translation of `logUnsetConfigForUser` from unset.go: the confirmation
line written to the output writer. -/
def logUnsetConfigForUser (global : Bool) (kubecontext : String)
    (out key : String) : String :=
  if global then out ++ ("unset global value " ++ key ++ "\n")
  else out ++ ("unset value " ++ key ++ " for context " ++ kubecontext ++ "\n")

/-- C8: the text appended to the output on a successful unset is exactly
the phrase unset global value followed by the key under the global flag,
and otherwise unset value, the key, for context, and the resolved context
name, each line ending in a newline. -/
theorem logUnset_message (g : Bool) (kc out key : String) :
    (logUnsetConfigForUser g kc out key).data =
      out.data ++
        (if g then "unset global value ".data ++ key.data ++ ['\n']
          else "unset value ".data ++ key.data ++ " for context ".data ++
            kc.data ++ ['\n']) := by
  cases g <;> simp [logUnsetConfigForUser]

/-- The state a config command runs in: the flag values, the ambient
current context, the resolved context, the configuration and the output
written so far. -/
structure CmdState where
  global : Bool
  kubecontextFlag : String
  currentContext : String
  kubecontext : String
  cfg : GlobalConfig
  out : String
deriving DecidableEq

/-- Modelled from the spec: `resolveKubectlContext` is not among the
sources; an external collaborator supplies the active context name when the
flag does not name one. -/
def resolveKubectlContext (st : CmdState) : CmdState :=
  { st with kubecontext :=
      if st.kubecontextFlag == "" then st.currentContext
      else st.kubecontextFlag }

/-- The flag/config view of a command state. -/
def CmdState.env (st : CmdState) : ConfigEnv := ⟨st.global, st.kubecontext, st.cfg⟩

/-- Translation of `doUnset` from unset.go: resolve the context, mutate the
configuration, and only on success write the confirmation message. -/
def doUnset (st : CmdState) (key : String) : Except String Unit × CmdState :=
  match unsetConfigValue (resolveKubectlContext st).env key with
  | Except.error e => (Except.error e, resolveKubectlContext st)
  | Except.ok cfg2 =>
    (Except.ok (),
      { resolveKubectlContext st with
        cfg := cfg2,
        out := logUnsetConfigForUser (resolveKubectlContext st).global
          (resolveKubectlContext st).kubecontext
          (resolveKubectlContext st).out key })

/-- C10: when the mutation fails, doUnset returns that error unchanged and
writes nothing: the confirmation message is only printed after the
mutation succeeded. -/
theorem doUnset_error_no_output (st : CmdState) (key e : String)
    (h : unsetConfigValue (resolveKubectlContext st).env key = Except.error e) :
    (doUnset st key).1 = Except.error e ∧ (doUnset st key).2.out = st.out := by
  unfold doUnset
  rw [h]
  exact ⟨rfl, rfl⟩

theorem doUnset_error_no_output_witness :
    (doUnset ⟨false, "", "ctx", "", ⟨⟨"r"⟩, []⟩, "OUT"⟩ "nope").1 =
        Except.error "unknown key nope" ∧
      (doUnset ⟨false, "", "ctx", "", ⟨⟨"r"⟩, []⟩, "OUT"⟩ "nope").2.out = "OUT" :=
  doUnset_error_no_output ⟨false, "", "ctx", "", ⟨⟨"r"⟩, []⟩, "OUT"⟩ "nope"
    "unknown key nope" (by decide)

/-- The typed destination structure of the CloneThroughJSON test, with the
serialized key of each field. -/
structure GoogleCloudBuild where
  projectID : String
  machineType : String
  dockerImage : String
deriving DecidableEq

/-- Look a serialized key up in a string map. -/
def lookupStr : List (String × String) → String → Option String
  | [], _ => none
  | (k, v) :: rest, key => if k == key then some v else lookupStr rest key

/-- Modelled from the spec: the body of `CloneThroughJSON` is not among the
sources (only its test is).  The source map is serialized to its key-value
form and deserialized into the destination: each destination field takes
the value at its serialized key when present and keeps its prior value
otherwise. -/
def CloneThroughJSON (src : List (String × String)) (dst : GoogleCloudBuild) :
    Except String GoogleCloudBuild :=
  Except.ok
    { projectID := (lookupStr src "projectId").getD dst.projectID,
      machineType := (lookupStr src "machineType").getD dst.machineType,
      dockerImage := (lookupStr src "dockerImage").getD dst.dockerImage }

/-- C9: cloning overwrites exactly the destination fields whose serialized
keys occur in the source and keeps every other field at its prior value;
cloning a map carrying only projectId into a zero-valued record sets
exactly the project id. -/
theorem cloneThroughJSON_frame :
    (∀ (src : List (String × String)) (dst r : GoogleCloudBuild),
        CloneThroughJSON src dst = Except.ok r →
        r.projectID = (lookupStr src "projectId").getD dst.projectID ∧
          r.machineType = (lookupStr src "machineType").getD dst.machineType ∧
          r.dockerImage = (lookupStr src "dockerImage").getD dst.dockerImage) ∧
      (∀ (src : List (String × String)) (dst r : GoogleCloudBuild),
          CloneThroughJSON src dst = Except.ok r →
          lookupStr src "machineType" = none →
          r.machineType = dst.machineType) ∧
      CloneThroughJSON [("projectId", "unit-test")] ⟨"", "", ""⟩ =
        Except.ok ⟨"unit-test", "", ""⟩ := by
  refine ⟨?_, ?_, by decide⟩
  · intro src dst r h
    injection h with h2
    rw [← h2]
    exact ⟨rfl, rfl, rfl⟩
  · intro src dst r h hnone
    injection h with h2
    rw [← h2]
    simp [hnone]

theorem cloneThroughJSON_frame_witness :
    (⟨"unit-test", "", ""⟩ : GoogleCloudBuild).projectID =
        (lookupStr [("projectId", "unit-test")] "projectId").getD
          (⟨"", "", ""⟩ : GoogleCloudBuild).projectID ∧
      (⟨"unit-test", "", ""⟩ : GoogleCloudBuild).machineType =
        (lookupStr [("projectId", "unit-test")] "machineType").getD
          (⟨"", "", ""⟩ : GoogleCloudBuild).machineType ∧
      (⟨"unit-test", "", ""⟩ : GoogleCloudBuild).dockerImage =
        (lookupStr [("projectId", "unit-test")] "dockerImage").getD
          (⟨"", "", ""⟩ : GoogleCloudBuild).dockerImage :=
  cloneThroughJSON_frame.1 [("projectId", "unit-test")] ⟨"", "", ""⟩
    ⟨"unit-test", "", ""⟩ (by decide)

end Skaffold
